import Mathlib

/-!
Verification of the chord-to-lyric alignment and markup compiler of the
`songbook` repository, a shallow embedding of `4_convert_to_latex.py`
(line classifier, chord tokenizer, chord/lyric merge algorithm, group
assembler) together with the curated-annotation parser of
`chords_to_latex.py`.  Strings are modelled as `List Char`; Python ints
appear as `Int` where Python subtraction may go negative.
-/

set_option maxHeartbeats 1000000

/-- Python's `\s` / `str.strip` whitespace class, restricted to ASCII. -/
def isWs (c : Char) : Bool :=
  c == ' ' || c == '\t' || c == '\n' || c == '\r' || c == '\x0b' || c == '\x0c'

/-- Python `str.lstrip()`. -/
def lstrip (l : List Char) : List Char := l.dropWhile isWs

/-- Python `str.rstrip()`. -/
def rstrip (l : List Char) : List Char := (l.reverse.dropWhile isWs).reverse

/-- Python `str.strip()`. -/
def strip (l : List Char) : List Char := rstrip (lstrip l)

/-- The `LineType` flag enum of `4_convert_to_latex.py` (one constructor per
single-bit member; combined flag sets are modelled as membership predicates
below). -/
inductive LineType where
  | EMPTY
  | VERSE
  | CHORUS
  | CHORDS
  | BRIDGE
  | SOLO
  | VERSE_WITH_CHORDS
  | CHORUS_WITH_CHORDS
  | BRIDGE_WITH_CHORDS
  | SOLO_WITH_CHORDS
  | TEXT
deriving DecidableEq, Repr

open LineType

/-- `is_chord_line` (`4_convert_to_latex.py` lines 97-102).  The source
computes `char_count = len(re.sub("\\s", "", line))` on the `lstrip`ped line,
`whitespace_count = len(line) - char_count`, and
`basic_chord_count = len(line) - len(re.sub("[A-H]", "", line))`; the two
comparisons are Python `int` comparisons, hence the casts to `Int`. -/
def is_chord_line (line : List Char) : Bool :=
  let l := lstrip line
  let char_count := l.countP (fun c => !isWs c)
  let whitespace_count := l.length - char_count
  let basic_chord_count := l.countP (fun c => 'A' ≤ c && c ≤ 'H')
  decide ((whitespace_count : Int) > (char_count : Int) - 4 ∧
          (char_count : Int) - (basic_chord_count : Int) < 8)

/-- `get_label` (`4_convert_to_latex.py` lines 104-112): `re.split("[\\.:]")`
returns more than one part iff a `.` or `:` occurs; the first part is the text
before the first separator.  The label is rejected when, after stripping, it
still contains whitespace (`re.sub("\\s","",label) != label`); otherwise it is
lowercased. -/
def get_label (line : List Char) : Option (List Char) :=
  if line.any (fun c => c == '.' || c == ':') then
    let label := strip (line.takeWhile (fun c => !(c == '.' || c == ':')))
    if label.any (fun c => isWs c) then none else some (label.map Char.toLower)
  else none

/-- Contiguous-substring test, Python's `needle in haystack` on strings. -/
def containsSeq (needle : List Char) : List Char → Bool
  | [] => needle.isEmpty
  | c :: rest => needle.isPrefixOf (c :: rest) || containsSeq needle rest

/-- `predict_line_types` body for a single line (`4_convert_to_latex.py`
lines 79-94).  `label.isnumeric()` is modelled as nonempty-and-all-ASCII-digit;
Python `'x' in label` is substring containment on the lowercased label. -/
def predict_line_type (line : List Char) : LineType :=
  if strip line = [] then LineType.EMPTY
  else if is_chord_line line then LineType.CHORDS
  else
    match get_label line with
    | some label =>
      if label ≠ [] ∧ label.all (fun c => '0' ≤ c && c ≤ '9') then LineType.VERSE
      else if containsSeq "bridge".toList label || label.contains '*' ||
              containsSeq "intro".toList label || containsSeq "outro".toList label then
        LineType.BRIDGE
      else if containsSeq "chorus".toList label || containsSeq "refren".toList label ||
              label.contains 'r' then
        LineType.CHORUS
      else LineType.SOLO
    | none => LineType.TEXT

/-! ## The chord tokenizer inside `merge`

The `while details != ""` loop of `merge` (`4_convert_to_latex.py` lines
218-228) peels, per iteration, the run of leading whitespace
(`left_padding_length`) and then the text up to the next whitespace
(`re.split("\\s", details, maxsplit=1)[0]`).  `tokenize` below computes the
same `(left_padding_length, detail)` list by structural recursion;
`tokenize_step` (proved later) certifies that it satisfies exactly the
loop's step equation. -/

def tokenize : List Char → List (Nat × List Char)
  | [] => []
  | c :: cs =>
    if isWs c then
      match tokenize cs with
      | [] => [(1, [])]
      | (p, t) :: rest => (p + 1, t) :: rest
    else
      match tokenize cs with
      | [] => [(0, [c])]
      | (0, t) :: rest => (0, c :: t) :: rest
      | (p + 1, t) :: rest => (0, [c]) :: (p + 1, t) :: rest

/-- Sum of `pad + len(tok)` over a token list: the number of characters the
loop consumed. -/
def tokSum : List (Nat × List Char) → Nat
  | [] => 0
  | (p, t) :: rest => p + t.length + tokSum rest

/-- The `segment_length_list.append(prev_detail_length + left_padding_length)`
accumulation for every iteration after the first (`prev_detail_length` is the
previous token's length). -/
def shiftedLens : Nat → List (Nat × List Char) → List Nat
  | _, [] => []
  | prev, (p, t) :: rest => (prev + p) :: shiftedLens t.length rest

/-- The full `segment_length_list` as built by the loop (first entry is the
initial padding, since `prev_detail_length` starts at 0). -/
def rawSegLens : List (Nat × List Char) → List Nat
  | [] => []
  | (p, t) :: rest => p :: shiftedLens t.length rest

/-- Lines 229-230: append `len(base) - sum(segment_length_list)` when nonzero.
At the call site inside `merge` the padded base is at least as long as the
rstripped details, so the Python value is never negative and `Nat`
subtraction agrees with it. -/
def segLens (bl : Nat) (toks : List (Nat × List Char)) : List Nat :=
  let raw := rawSegLens toks
  if bl - raw.sum ≠ 0 then raw ++ [bl - raw.sum] else raw

/-- Lines 233-235: `segment_length_list.pop(0)` (the tail is what remains),
`segment_length_list.append(0)`, then `zip(segment_length_list, detail_list)`
(Python `zip` truncates to the shorter list, as does `List.zip`). -/
def segPairs (bl : Nat) (toks : List (Nat × List Char)) : List (Nat × List Char) :=
  ((segLens bl toks).tail ++ [0]).zip (toks.map Prod.snd)

/-- `"m" in detail.lower() or "dim" in detail.lower()` (lines 242-243). -/
def hasMinorMark (d : List Char) : Bool :=
  let low := d.map Char.toLower
  containsSeq ['m'] low || containsSeq ['d', 'i', 'm'] low

/-- `detail_length` of lines 241-243: `max(len(detail) + 1, 3)`, plus 2 for a
minor/diminished mark. -/
def detailLength (d : List Char) : Nat :=
  max (d.length + 1) 3 + (if hasMinorMark d then 2 else 0)

/-- `re.sub("\\s", "~", segment, count=k)`: replace the first `k` whitespace
characters by `~`. -/
def subWs : Nat → List Char → List Char
  | 0, l => l
  | _ + 1, [] => []
  | k + 1, c :: cs => if isWs c then '~' :: subWs k cs else c :: subWs (k + 1) cs

/-- `format_chord` (`4_convert_to_latex.py` lines 194-195). -/
def format_chord (chord : List Char) (is_optional is_special : Bool) : List Char :=
  '\\' :: (if is_optional then 'o' else 'm') :: "chord".toList ++
    (if is_special then ['*'] else []) ++ '\x7b' :: (chord ++ ['\x7d'])

/-- One piece of merged output: a stretch of (possibly modified) base text, or
one chord command with its optional/starred flags. -/
inductive Piece where
  | text : List Char → Piece
  | chord : List Char → Bool → Bool → Piece
deriving DecidableEq, Repr

def renderPiece : Piece → List Char
  | Piece.text s => s
  | Piece.chord d o s => format_chord d o s

/-- The `for index, (segment_length, detail) in enumerate(zip(...))` loop of
`merge` (lines 237-263), emitting one chord command and one segment per
iteration.  `is_last` is `index == len(detail_list) - 1`, i.e. the rest of the
pair list is empty. -/
def emitPieces (base : List Char) (opt : Bool) : Nat → List (Nat × List Char) → List Piece
  | _, [] => []
  | total, (segLen, detail) :: rest =>
    let isLast := rest.isEmpty
    let segment := (base.drop total).take segLen
    let spaceCount := segment.countP (fun c => isWs c)
    let dl := detailLength detail
    let farCount := if segment.length ≤ dl then 0
                    else (segment.drop dl).countP (fun c => isWs c)
    if !isLast && spaceCount == 0 && !segment.isEmpty then
      let segment' := if dl ≤ segment.length
                      then segment.take dl ++ ' ' :: segment.drop dl
                      else segment ++ [' ']
      Piece.chord detail opt true :: Piece.text segment' ::
        emitPieces base opt (total + segLen) rest
    else
      let segment' := if 0 < farCount ∧ spaceCount - farCount ≠ 0
                      then subWs (spaceCount - farCount) segment
                      else segment
      Piece.chord detail opt false :: Piece.text segment' ::
        emitPieces base opt (total + segLen) rest

/-- `merge` (`4_convert_to_latex.py` lines 201-264) as a piece list: the early
return on blank details, the `rstrip`, the right-padding of `base` to the
length of `details`, the tokenizing loop, the initial
`merged = base[:total_segment_length]` slice, then the emission loop. -/
def merge_pieces (base details : List Char) (opt : Bool) : List Piece :=
  if (strip details).length = 0 then [Piece.text base]
  else
    let details' := rstrip details
    let base' := if base.length ≤ details'.length
                 then base ++ List.replicate (details'.length - base.length) ' '
                 else base
    let toks := tokenize details'
    let total0 := (segLens base'.length toks).headD 0
    Piece.text (base'.take total0) ::
      emitPieces base' opt total0 (segPairs base'.length toks)

/-- `merge`: the concatenation of the rendered pieces, which is exactly the
string the Python function accumulates in `merged`. -/
def merge (base details : List Char) (opt : Bool) : List Char :=
  ((merge_pieces base details opt).map renderPiece).flatten

/-! ## The group assembler `format_annotated_lines` -/

/-- Membership in the `group_start` flag set (line 152). -/
def isGroupStart : LineType → Bool
  | VERSE | CHORUS | BRIDGE | SOLO
  | VERSE_WITH_CHORDS | CHORUS_WITH_CHORDS | BRIDGE_WITH_CHORDS | SOLO_WITH_CHORDS => true
  | _ => false

/-- Membership in the `has_chords` flag set (line 153). -/
def hasChordsType : LineType → Bool
  | VERSE_WITH_CHORDS | CHORUS_WITH_CHORDS | BRIDGE_WITH_CHORDS | SOLO_WITH_CHORDS => true
  | _ => false

/-- `gobbles_chords = group_start | LineType.TEXT` (line 154); note that
`EMPTY` is not a member. -/
def gobblesChords (t : LineType) : Bool := isGroupStart t || t == TEXT

/-- `should_be_appended = group_start | LineType.TEXT` (line 155). -/
def shouldBeAppended (t : LineType) : Bool := isGroupStart t || t == TEXT

/-- `getGroupName` (lines 114-123). -/
def getGroupName : LineType → List Char
  | VERSE | VERSE_WITH_CHORDS => "verse".toList
  | CHORUS | CHORUS_WITH_CHORDS => "refren".toList
  | BRIDGE | BRIDGE_WITH_CHORDS => "deco".toList
  | SOLO | SOLO_WITH_CHORDS => "solo".toList
  | _ => []

/-- `f"\\begin{{{getGroupName(t)}}}"`. -/
def beginLine (t : LineType) : List Char :=
  "\\begin".toList ++ '\x7b' :: (getGroupName t ++ ['\x7d'])

/-- `f"\\end{{{getGroupName(t)}}}"`. -/
def endLine (t : LineType) : List Char :=
  "\\end".toList ++ '\x7b' :: (getGroupName t ++ ['\x7d'])

/-- `get_group_padding_length` (lines 266-270). -/
def get_group_padding_length (line : List Char) : Nat :=
  if line.any (fun c => c == '.' || c == ':') then
    (line.takeWhile (fun c => !(c == '.' || c == ':'))).length + 2
  else 0

/-- Python `re.split("\\s", line)` without `maxsplit`: split at every single
whitespace character, keeping empty fields. -/
def splitWsAll : List Char → List (List Char)
  | [] => [[]]
  | c :: cs =>
    if isWs c then [] :: splitWsAll cs
    else
      match splitWsAll cs with
      | [] => [[c]]
      | h :: t => (c :: h) :: t

/-- `format_solo_line` (lines 197-199). -/
def format_solo_line (line : List Char) : List Char :=
  List.intercalate [' ']
    ((splitWsAll line).map (fun chord =>
      "\\inlinechord".toList ++ '\x7b' :: (chord ++ ['\x7d'])))

/-- The mutable state threaded through `format_annotated_lines`
(lines 126-132). -/
structure FState where
  chord_buffer : List Char
  output_lines : List (List Char)
  current_group_type : Option LineType
  group_lines : List (List Char)
  group_padding : Nat
  merge_chords : Bool
deriving DecidableEq, Repr

def initState : FState := ⟨[], [], none, [], 0, false⟩

/-- The ` \\` continuation suffix (`line + " \\\\"`, line 142). -/
def contMark : List Char := [' ', '\\', '\\']

/-- `end_group` (lines 134-150).  It is only invoked with
`current_group_type` set; the `none` case (which would raise in Python) maps
the name to the empty string. -/
def endGroup (st : FState) : FState :=
  let name := match st.current_group_type with
              | some g => getGroupName g
              | none => []
  let out :=
    if st.group_lines.isEmpty then st.output_lines
    else st.output_lines ++ (st.group_lines.dropLast.map (fun l => l ++ contMark)) ++
         [(st.group_lines.getLast?).getD []]
  { st with
    output_lines := out ++ ["\\end".toList ++ '\x7b' :: (name ++ ['\x7d'])],
    current_group_type := none,
    group_lines := [],
    group_padding := 0,
    merge_chords := false }

/-- Membership of the current group in `has_chords`; the group is always set
when this is read (line 179). -/
def optHasChords : Option LineType → Bool
  | some t => hasChordsType t
  | none => false

/-- The body of the `for line_type, line in lines` loop of
`format_annotated_lines` (lines 157-187), in source order: the
`EMPTY`/group-start prefix, then the `should_be_appended`/`CHORDS`
dispatch, then the `gobbles_chords` buffer clear. -/
def processLine (st : FState) (tl : LineType × List Char) : FState :=
  let line_type := tl.1
  let line := tl.2
  let st :=
    if line_type = LineType.EMPTY ∧ st.current_group_type ≠ none then endGroup st
    else if isGroupStart line_type then
      let st := if st.current_group_type ≠ none then endGroup st else st
      { st with
        current_group_type := some line_type,
        group_padding := get_group_padding_length line,
        merge_chords := hasChordsType line_type,
        output_lines := st.output_lines ++ [beginLine line_type] }
    else st
  let st :=
    if shouldBeAppended line_type then
      let st :=
        if st.current_group_type = none then
          let g := if st.chord_buffer.isEmpty then LineType.VERSE
                   else LineType.VERSE_WITH_CHORDS
          { st with
            group_padding := (line.takeWhile isWs).length,
            current_group_type := some g,
            output_lines := st.output_lines ++ [beginLine g] }
        else st
      if st.current_group_type = some LineType.SOLO then
        { st with group_lines :=
            st.group_lines ++ [format_solo_line (line.drop st.group_padding)] }
      else if optHasChords st.current_group_type then
        { st with group_lines :=
            st.group_lines ++ ["   ".toList ++
              merge (line.drop st.group_padding) (st.chord_buffer.drop st.group_padding) false] }
      else
        { st with group_lines :=
            st.group_lines ++ ["   ".toList ++
              merge (line.drop st.group_padding) (st.chord_buffer.drop st.group_padding) true] }
    else if line_type = LineType.CHORDS then { st with chord_buffer := line }
    else st
  if gobblesChords line_type then { st with chord_buffer := [] } else st

/-- The end-of-input epilogue (lines 189-192): close a still-open group and
return the collected output lines. -/
def finalizeLines (st : FState) : List (List Char) :=
  (if st.current_group_type ≠ none then endGroup st else st).output_lines

/-- `format_annotated_lines` (lines 125-192). -/
def format_annotated_lines (lines : List (LineType × List Char)) : List (List Char) :=
  finalizeLines (lines.foldl processLine initState)

/-! ## Curated-classification parsing -/

/-- `parse_line_type` (`4_convert_to_latex.py` lines 305-328): a `match` with
no default case, so an unrecognized character yields Python `None`, modelled
as `none`. -/
def parse_line_type : Char → Option LineType
  | 'e' => some LineType.EMPTY
  | 'v' => some LineType.VERSE
  | 'r' => some LineType.CHORUS
  | 'c' => some LineType.CHORDS
  | 'b' => some LineType.BRIDGE
  | 's' => some LineType.SOLO
  | 'V' => some LineType.VERSE_WITH_CHORDS
  | 'R' => some LineType.CHORUS_WITH_CHORDS
  | 'B' => some LineType.BRIDGE_WITH_CHORDS
  | 'S' => some LineType.SOLO_WITH_CHORDS
  | ' ' => some LineType.TEXT
  | _ => none

/-- One step of the result-parsing loop of `annotate_lines_with_char`
(`chords_to_latex.py` lines 67-78): a line matches the two-field encoding when
it has length at least 3 and characters 2-3 are `"> "`; otherwise the curated
line is malformed and the annotation falls back to `none` (PlainText). -/
def parse_annot_line (original edited : List Char) : Option Char × List Char :=
  if 3 ≤ edited.length ∧ (edited.drop 2).take 2 = ['>', ' '] then
    match edited.head? with
    | some c => if c = ' ' then (none, original) else (some c, original)
    | none => (none, original)
  else (none, original)

/-- `for original, edited in zip(lines, edited_lines)` of
`annotate_lines_with_char`. -/
def annot_parse_lines : List (List Char) → List (List Char) → List (Option Char × List Char)
  | [], _ => []
  | _ :: _, [] => []
  | o :: os, e :: es => parse_annot_line o e :: annot_parse_lines os es

/-! ## Specification-side definitions used by the claims -/

/-- Claim-side tokenizer specification (§4.2 of the spec): each maximal
non-whitespace run of the line is one token, paired with its absolute
starting column. -/
def specRunsGo : Nat → List Char → List (Nat × List Char)
  | _, [] => []
  | col, c :: cs =>
    if isWs c then specRunsGo (col + 1) cs
    else
      match specRunsGo (col + 1) cs with
      | [] => [(col, [c])]
      | (col2, t) :: rest =>
        if col2 = col + 1 then (col, c :: t) :: rest
        else (col, [c]) :: (col2, t) :: rest

/-- All (absolute column, non-whitespace run) pairs of a line. -/
def specRuns (l : List Char) : List (Nat × List Char) := specRunsGo 0 l

/-- Convert `tokenize`'s relative paddings into absolute columns. -/
def tokenizeAbs : Nat → List (Nat × List Char) → List (Nat × List Char)
  | _, [] => []
  | col, (p, t) :: rest => (col + p, t) :: tokenizeAbs (col + p + t.length) rest

/-- Bookkeeping invariant for the emission loop: every pair except the last
starts strictly inside the base line and has a positive segment length. -/
def interiorOK (bl : Nat) : Nat → List (Nat × List Char) → Prop
  | _, [] => True
  | total, (s, _) :: rest =>
    (rest ≠ [] → total < bl ∧ 1 ≤ s) ∧ interiorOK bl (total + s) rest

/-- Adjacency scanner for a piece list: the flag records whether we are
immediately after a chord command with no interleaving character; a second
chord command in that state is a collision. -/
def sepOKAux : Bool → List Piece → Bool
  | _, [] => true
  | afterChord, Piece.chord _ _ _ :: rest => !afterChord && sepOKAux true rest
  | afterChord, Piece.text [] :: rest => sepOKAux afterChord rest
  | _, Piece.text (_ :: _) :: rest => sepOKAux false rest

/-- A line whose last character (if any) is not whitespace — the shape of any
`rstrip`ped string. -/
def lastNonWs (l : List Char) : Prop := ∀ c, l.getLast? = some c → isWs c = false

/-! # Theorems -/

/-! ## Generic helper lemmas -/

theorem count_ws_split (l : List Char) :
    l.countP (fun c => isWs c) + l.countP (fun c => !isWs c) = l.length := by
  induction l with
  | nil => rfl
  | cons c cs ih =>
    by_cases h : isWs c <;> simp [List.countP_cons, h] <;> omega

theorem dropWhile_head_not (p : Char → Bool) (l : List Char) (c : Char)
    (h : (l.dropWhile p).head? = some c) : p c = false := by
  induction l with
  | nil => simp [List.dropWhile] at h
  | cons a as ih =>
    by_cases hp : p a
    · rw [List.dropWhile_cons_of_pos hp] at h
      exact ih h
    · rw [List.dropWhile_cons_of_neg hp] at h
      simp only [List.head?_cons, Option.some.injEq] at h
      subst h
      simpa using hp

theorem rstrip_lastNonWs (l : List Char) : lastNonWs (rstrip l) := by
  intro c hc
  unfold rstrip at hc
  rw [List.getLast?_reverse] at hc
  exact dropWhile_head_not isWs l.reverse c hc

theorem rstrip_eq_nil_iff (l : List Char) :
    rstrip l = [] ↔ ∀ c ∈ l, isWs c = true := by
  unfold rstrip
  rw [List.reverse_eq_nil_iff, List.dropWhile_eq_nil_iff]
  constructor
  · intro h c hc
    exact h c (List.mem_reverse.mpr hc)
  · intro h c hc
    exact h c (List.mem_reverse.mp hc)

theorem strip_eq_nil_iff (l : List Char) :
    strip l = [] ↔ ∀ c ∈ l, isWs c = true := by
  unfold strip lstrip
  rw [rstrip_eq_nil_iff]
  constructor
  · intro h c hc
    by_cases hw : isWs c
    · exact hw
    · exfalso
      have hmem : c ∈ l.dropWhile isWs := by
        have hsplit := List.takeWhile_append_dropWhile isWs l
        have : c ∈ l.takeWhile isWs ++ l.dropWhile isWs := by rw [hsplit]; exact hc
        rcases List.mem_append.mp this with h1 | h2
        · exact absurd (List.mem_takeWhile_imp h1) hw
        · exact h2
      exact hw (h c hmem)
  · intro h c hc
    have hsplit := List.takeWhile_append_dropWhile isWs l
    apply h
    rw [← hsplit]
    exact List.mem_append.mpr (Or.inr hc)

theorem rstrip_decomp (l : List Char) :
    l = rstrip l ++ (l.reverse.takeWhile isWs).reverse ∧
    (∀ c ∈ (l.reverse.takeWhile isWs).reverse, isWs c = true) := by
  constructor
  · conv_lhs => rw [← List.reverse_reverse l,
      ← List.takeWhile_append_dropWhile isWs l.reverse]
    rw [List.reverse_append]
    rfl
  · intro c hc
    rw [List.mem_reverse] at hc
    exact List.mem_takeWhile_imp hc

/-! ## Tokenizer lemmas -/

theorem tokenize_eq_nil_iff (l : List Char) : tokenize l = [] ↔ l = [] := by
  cases l with
  | nil => simp [tokenize]
  | cons c cs =>
    constructor
    · intro h
      exfalso
      unfold tokenize at h
      by_cases hw : isWs c
      · rw [if_pos hw] at h
        cases htk : tokenize cs with
        | nil => rw [htk] at h; simp at h
        | cons pt r => rw [htk] at h; cases pt; simp at h
      · rw [if_neg hw] at h
        cases htk : tokenize cs with
        | nil => rw [htk] at h; simp at h
        | cons pt r =>
          obtain ⟨p, t⟩ := pt
          rw [htk] at h
          cases p <;> simp at h
    · intro h; cases h

/-- One definitional unfolding of `tokenize` on a cons cell. -/
theorem tokenize_cons (c : Char) (cs : List Char) :
    tokenize (c :: cs) =
      if isWs c then
        match tokenize cs with
        | [] => [(1, [])]
        | (p, t) :: rest => (p + 1, t) :: rest
      else
        match tokenize cs with
        | [] => [(0, [c])]
        | (0, t) :: rest => (0, c :: t) :: rest
        | (p + 1, t) :: rest => (0, [c]) :: (p + 1, t) :: rest := by
  rfl

/-- The structural `tokenize` satisfies exactly the step equation of the
`while details != ""` loop in `merge`: peel the run of leading whitespace
(`left_padding_length`), take the text before the next whitespace
(`re.split("\\s", details, maxsplit=1)[0]`), and continue on the remainder. -/
theorem tokenize_step (ds : List Char) (h : ds ≠ []) :
    tokenize ds =
      ((ds.takeWhile isWs).length,
       (ds.dropWhile isWs).takeWhile (fun c => !isWs c)) ::
      tokenize ((ds.dropWhile isWs).drop
        (((ds.dropWhile isWs).takeWhile (fun c => !isWs c)).length)) := by
  induction ds with
  | nil => exact absurd rfl h
  | cons c cs ih =>
    by_cases hw : isWs c
    · rw [List.takeWhile_cons_of_pos hw, List.dropWhile_cons_of_pos hw]
      cases hcs : cs with
      | nil =>
        subst hcs
        simp [tokenize, hw, List.takeWhile, List.dropWhile]
      | cons c2 cs2 =>
        have hne : cs ≠ [] := by rw [hcs]; simp
        rw [← hcs]
        rw [tokenize_cons, if_pos hw, ih hne]
        simp
    · rw [List.takeWhile_cons_of_neg hw, List.dropWhile_cons_of_neg hw]
      have htw : (c :: cs).takeWhile (fun c => !isWs c) =
          c :: cs.takeWhile (fun c => !isWs c) := by
        rw [List.takeWhile_cons_of_pos]
        simp [hw]
      rw [htw]
      cases hcs : cs with
      | nil =>
        subst hcs
        simp [tokenize, hw, List.takeWhile, List.dropWhile]
      | cons c2 cs2 =>
        have hne : cs ≠ [] := by rw [hcs]; simp
        rw [← hcs]
        by_cases hw2 : isWs c2
        · -- cs starts with whitespace: the current token is just [c]
          have htw2 : cs.takeWhile (fun c => !isWs c) = [] := by
            rw [hcs, List.takeWhile_cons_of_neg]
            simp [hw2]
          have hk : ∃ k, (cs.takeWhile isWs).length = k + 1 := by
            refine ⟨(cs.takeWhile isWs).length - 1, ?_⟩
            have hne2 : cs.takeWhile isWs ≠ [] := by
              rw [hcs, List.takeWhile_cons_of_pos hw2]
              simp
            have := List.length_pos.mpr hne2
            omega
          obtain ⟨k, hk⟩ := hk
          rw [htw2]
          rw [tokenize_cons, if_neg (by simp [hw]), ih hne, hk]
          simp
          rw [ih hne, hk]
        · -- cs starts with a non-whitespace character: the token continues
          have hdw : cs.dropWhile isWs = cs := by
            rw [hcs, List.dropWhile_cons_of_neg]
            simp [hw2]
          have htwws : cs.takeWhile isWs = [] := by
            rw [hcs, List.takeWhile_cons_of_neg]
            simp [hw2]
          have ih' := ih hne
          rw [hdw, htwws] at ih'
          simp only [List.length_nil] at ih'
          rw [tokenize_cons, if_neg (by simp [hw]), ih']
          simp

theorem lastNonWs_cons (c : Char) (cs : List Char) (hcs : cs ≠ [])
    (h : lastNonWs (c :: cs)) : lastNonWs cs := by
  intro x hx
  apply h
  cases cs with
  | nil => exact absurd rfl hcs
  | cons a as => rw [List.getLast?_cons_cons]; exact hx

/-- When the tokenized string ends in a non-whitespace character (as every
`rstrip`ped nonblank string does), every produced token is nonempty. -/
theorem tokenize_tokens_ne_nil (l : List Char) (h : lastNonWs l) :
    ∀ p t, (p, t) ∈ tokenize l → t ≠ [] := by
  induction l with
  | nil => intro p t ht; simp [tokenize] at ht
  | cons c cs ih =>
    intro p t ht
    by_cases hw : isWs c
    · cases hcs : cs with
      | nil =>
        subst hcs
        have hlast := h c (by simp)
        rw [hw] at hlast
        simp at hlast
      | cons c2 cs2 =>
        have hne : cs ≠ [] := by rw [hcs]; simp
        have hlast := lastNonWs_cons c cs hne h
        rw [tokenize_cons, if_pos hw] at ht
        cases htk : tokenize cs with
        | nil => rw [tokenize_eq_nil_iff] at htk; exact absurd htk hne
        | cons pt r =>
          obtain ⟨p2, t2⟩ := pt
          rw [htk] at ht
          simp only [List.mem_cons, Prod.mk.injEq] at ht
          rcases ht with ⟨_, ht2⟩ | ht
          · subst ht2
            exact ih hlast p2 t (by rw [htk]; exact List.mem_cons_self _ _)
          · exact ih hlast p t (by rw [htk]; exact List.mem_cons_of_mem _ ht)
    · rw [tokenize_cons, if_neg (by simp [hw])] at ht
      cases htk : tokenize cs with
      | nil =>
        rw [htk] at ht
        simp only [List.mem_cons, Prod.mk.injEq] at ht
        rcases ht with ⟨_, ht2⟩ | ht
        · subst ht2; simp
        · simp at ht
      | cons pt r =>
        obtain ⟨p2, t2⟩ := pt
        have hne : cs ≠ [] := by
          intro hnil
          rw [hnil] at htk
          simp [tokenize] at htk
        have hlast := lastNonWs_cons c cs hne h
        rw [htk] at ht
        cases p2 with
        | zero =>
          simp only [List.mem_cons, Prod.mk.injEq] at ht
          rcases ht with ⟨_, ht2⟩ | ht
          · subst ht2; simp
          · exact ih hlast p t (by rw [htk]; exact List.mem_cons_of_mem _ ht)
        | succ p3 =>
          simp only [List.mem_cons, Prod.mk.injEq] at ht
          rcases ht with ⟨_, ht2⟩ | ⟨_, ht2⟩ | ht
          · subst ht2; simp
          · subst ht2
            exact ih hlast (p3 + 1) t (by rw [htk]; exact List.mem_cons_self _ _)
          · exact ih hlast p t (by rw [htk]; exact List.mem_cons_of_mem _ ht)

theorem tokSum_tokenize (l : List Char) : tokSum (tokenize l) = l.length := by
  induction l with
  | nil => rfl
  | cons c cs ih =>
    by_cases hw : isWs c
    · rw [tokenize_cons, if_pos hw]
      cases htk : tokenize cs with
      | nil =>
        rw [htk] at ih
        simp only [tokSum, List.length_nil, List.length_cons] at ih ⊢
        omega
      | cons pt r =>
        obtain ⟨p2, t2⟩ := pt
        rw [htk] at ih
        simp only [tokSum, List.length_nil, List.length_cons] at ih ⊢
        omega
    · rw [tokenize_cons, if_neg (by simp [hw])]
      cases htk : tokenize cs with
      | nil =>
        rw [htk] at ih
        simp only [tokSum, List.length_nil, List.length_cons] at ih ⊢
        omega
      | cons pt r =>
        obtain ⟨p2, t2⟩ := pt
        rw [htk] at ih
        cases p2 with
        | zero =>
          simp only [tokSum, List.length_nil, List.length_cons] at ih ⊢
          omega
        | succ p3 =>
          simp only [tokSum, List.length_nil, List.length_cons] at ih ⊢
          omega

/-! ## Merge-loop lemmas -/

theorem subWs_length (l : List Char) : ∀ k, (subWs k l).length = l.length := by
  induction l with
  | nil => intro k; cases k <;> rfl
  | cons c cs ih =>
    intro k
    cases k with
    | zero => rfl
    | succ k2 =>
      by_cases hw : isWs c
      · simp [subWs, hw, ih]
      · simp [subWs, hw, ih]

/-- One definitional unfolding of the emission loop on a cons cell. -/
theorem emitPieces_cons_eq (base : List Char) (opt : Bool) (total segLen : Nat)
    (detail : List Char) (rest : List (Nat × List Char)) :
    emitPieces base opt total ((segLen, detail) :: rest) =
      if (!rest.isEmpty &&
          ((base.drop total).take segLen).countP (fun c => isWs c) == 0 &&
          !((base.drop total).take segLen).isEmpty) then
        Piece.chord detail opt true ::
        Piece.text (if detailLength detail ≤ ((base.drop total).take segLen).length
            then ((base.drop total).take segLen).take (detailLength detail) ++
                 ' ' :: ((base.drop total).take segLen).drop (detailLength detail)
            else ((base.drop total).take segLen) ++ [' ']) ::
        emitPieces base opt (total + segLen) rest
      else
        Piece.chord detail opt false ::
        Piece.text (if 0 < (if ((base.drop total).take segLen).length ≤ detailLength detail
                then 0
                else (((base.drop total).take segLen).drop (detailLength detail)).countP
                  (fun c => isWs c)) ∧
              ((base.drop total).take segLen).countP (fun c => isWs c) -
                (if ((base.drop total).take segLen).length ≤ detailLength detail
                 then 0
                 else (((base.drop total).take segLen).drop (detailLength detail)).countP
                   (fun c => isWs c)) ≠ 0
            then subWs
              (((base.drop total).take segLen).countP (fun c => isWs c) -
                (if ((base.drop total).take segLen).length ≤ detailLength detail
                 then 0
                 else (((base.drop total).take segLen).drop (detailLength detail)).countP
                   (fun c => isWs c)))
              ((base.drop total).take segLen)
            else ((base.drop total).take segLen)) ::
        emitPieces base opt (total + segLen) rest := by
  rfl

/-- One step of the emission loop: a chord piece, the (possibly modified)
segment, then the rest — and when the segment is nonempty, the emitted
segment text is nonempty as well. -/
theorem emitPieces_cons (base : List Char) (opt : Bool) (total segLen : Nat)
    (detail : List Char) (rest : List (Nat × List Char)) :
    ∃ st txt, emitPieces base opt total ((segLen, detail) :: rest) =
      Piece.chord detail opt st :: Piece.text txt ::
        emitPieces base opt (total + segLen) rest ∧
      ((base.drop total).take segLen ≠ [] → txt ≠ []) := by
  rw [emitPieces_cons_eq]
  by_cases hg : (!rest.isEmpty &&
      ((base.drop total).take segLen).countP (fun c => isWs c) == 0 &&
      !((base.drop total).take segLen).isEmpty) = true
  · rw [if_pos hg]
    refine ⟨true, _, rfl, ?_⟩
    intro _
    by_cases hc : detailLength detail ≤ ((base.drop total).take segLen).length
    · rw [if_pos hc]; simp
    · rw [if_neg hc]; simp
  · rw [if_neg hg]
    refine ⟨false, _, rfl, ?_⟩
    intro hne
    by_cases hc : 0 < (if ((base.drop total).take segLen).length ≤ detailLength detail then 0
          else (((base.drop total).take segLen).drop (detailLength detail)).countP
            (fun c => isWs c)) ∧
        ((base.drop total).take segLen).countP (fun c => isWs c) -
          (if ((base.drop total).take segLen).length ≤ detailLength detail then 0
           else (((base.drop total).take segLen).drop (detailLength detail)).countP
             (fun c => isWs c)) ≠ 0
    · rw [if_pos hc]
      intro habs
      apply hne
      have hlen := subWs_length ((base.drop total).take segLen)
        (((base.drop total).take segLen).countP (fun c => isWs c) -
         (if ((base.drop total).take segLen).length ≤ detailLength detail then 0
          else (((base.drop total).take segLen).drop (detailLength detail)).countP
            (fun c => isWs c)))
      rw [habs] at hlen
      simpa using (List.length_eq_zero.mp hlen.symm)
    · rw [if_neg hc]
      exact hne

theorem sepOKAux_text_false (t : List Char) (l : List Piece) :
    sepOKAux false (Piece.text t :: l) = sepOKAux false l := by
  cases t <;> rfl

/-- The emission loop never produces two adjacent chord commands as long as
every non-final pair points at a nonempty slice of the base. -/
theorem emit_sep (base : List Char) (opt : Bool) :
    ∀ (pairs : List (Nat × List Char)) (total : Nat),
      interiorOK base.length total pairs →
      sepOKAux false (emitPieces base opt total pairs) = true := by
  intro pairs
  induction pairs with
  | nil => intro total _; rfl
  | cons pt rest ih =>
    obtain ⟨segLen, detail⟩ := pt
    intro total hint
    obtain ⟨hhead, htail⟩ := hint
    obtain ⟨st, txt, heq, hne⟩ := emitPieces_cons base opt total segLen detail rest
    rw [heq]
    cases hrest : rest with
    | nil =>
      subst hrest
      simp only [emitPieces]
      cases txt <;> rfl
    | cons q qs =>
      have hbound := hhead (by rw [hrest]; simp)
      have hseg : (base.drop total).take segLen ≠ [] := by
        have h1 : base.drop total ≠ [] := by
          rw [ne_eq, List.drop_eq_nil_iff]
          omega
        rw [ne_eq, List.take_eq_nil_iff]
        push_neg
        exact ⟨by omega, h1⟩
      have htxt := hne hseg
      obtain ⟨a, as, htxt2⟩ : ∃ a as, txt = a :: as := by
        cases txt with
        | nil => exact absurd rfl htxt
        | cons a as => exact ⟨a, as, rfl⟩
      subst htxt2
      show sepOKAux false (emitPieces base opt (total + segLen) (q :: qs)) = true
      rw [← hrest]
      exact ih (total + segLen) htail

/-- The segment-length bookkeeping of `merge` keeps every non-final pair
strictly inside the base line: the accumulated offset stays below `bl` and
every non-final segment length is positive, for any trailing entries `tl`
appended after the shifted lengths. -/
theorem interior_aux (toks : List (Nat × List Char)) :
    ∀ (t0 : List Char) (total bl : Nat) (tl : List Nat),
      t0 ≠ [] → (∀ p t, (p, t) ∈ toks → t ≠ []) →
      total + t0.length + tokSum toks ≤ bl →
      interiorOK bl total
        ((shiftedLens t0.length toks ++ tl).zip (t0 :: toks.map Prod.snd)) := by
  induction toks with
  | nil =>
    intro t0 total bl tl h0 _ hle
    cases tl with
    | nil => simp [shiftedLens, interiorOK]
    | cons s ts =>
      simp only [shiftedLens, List.nil_append, List.map_nil, List.zip_cons_cons,
        List.zip_nil_right, List.zipWith_nil_right, interiorOK]
      exact ⟨fun hc => absurd rfl hc, trivial⟩
  | cons pt rest ih =>
    obtain ⟨p1, t1⟩ := pt
    intro t0 total bl tl h0 htoks hle
    have ht0len : 1 ≤ t0.length := List.length_pos.mpr h0
    have ht1 : t1 ≠ [] := htoks p1 t1 (List.mem_cons_self _ _)
    simp only [shiftedLens, List.cons_append, List.map_cons, List.zip_cons_cons]
    simp only [tokSum] at hle
    refine ⟨fun _ => ⟨by omega, by omega⟩, ?_⟩
    have := ih t1 (total + (t0.length + p1)) bl tl ht1
      (fun p t hm => htoks p t (List.mem_cons_of_mem _ hm))
      (by omega)
    simpa using this

/-- Claim C1: for every chord-buffer line `C`, lyric line `L` and `withChords`
flag, the merged line produced by `merge` contains no two chord commands that
are textually adjacent — between any two emitted chord commands there is at
least one non-command character.  This is stated on the emitted piece list
(`merge_pieces`), of which `merge` is by definition the textual rendering
(second conjunct): every text piece standing between two chord pieces is
nonempty. -/
theorem merge_no_adjacent_chords (C L : List Char) (w : Bool) :
    sepOKAux false (merge_pieces L C w) = true ∧
    merge L C w = ((merge_pieces L C w).map renderPiece).flatten := by
  refine ⟨?_, rfl⟩
  unfold merge_pieces
  by_cases hblank : (strip C).length = 0
  · rw [if_pos hblank]
    cases L <;> rfl
  · rw [if_neg hblank]
    simp only []
    have hsne : strip C ≠ [] := by
      intro h
      exact hblank (by rw [h]; rfl)
    have hrne : rstrip C ≠ [] := by
      intro h
      apply hsne
      rw [strip_eq_nil_iff]
      exact (rstrip_eq_nil_iff C).mp h
    have hlast := rstrip_lastNonWs C
    obtain ⟨pt, toksRest, htk⟩ : ∃ pt r, tokenize (rstrip C) = pt :: r := by
      cases htk : tokenize (rstrip C) with
      | nil => rw [tokenize_eq_nil_iff] at htk; exact absurd htk hrne
      | cons pt r => exact ⟨pt, r, rfl⟩
    obtain ⟨p0, t0⟩ := pt
    have ht0 : t0 ≠ [] := tokenize_tokens_ne_nil _ hlast p0 t0
      (by rw [htk]; exact List.mem_cons_self _ _)
    have htoksRest : ∀ p t, (p, t) ∈ toksRest → t ≠ [] := fun p t hm =>
      tokenize_tokens_ne_nil _ hlast p t (by rw [htk]; exact List.mem_cons_of_mem _ hm)
    have hsum : p0 + t0.length + tokSum toksRest = (rstrip C).length := by
      have h := tokSum_tokenize (rstrip C)
      rw [htk] at h
      simpa [tokSum] using h
    set B : List Char := if L.length ≤ (rstrip C).length
        then L ++ List.replicate ((rstrip C).length - L.length) ' ' else L with hB
    have hBlen : (rstrip C).length ≤ B.length := by
      rw [hB]
      split_ifs with h
      · simp
        omega
      · omega
    have hraw : rawSegLens (tokenize (rstrip C)) =
        p0 :: shiftedLens t0.length toksRest := by
      rw [htk]; rfl
    have hsegLens : ∃ tl, (segLens B.length (tokenize (rstrip C))).tail ++ [0] =
        shiftedLens t0.length toksRest ++ tl ∧
        (segLens B.length (tokenize (rstrip C))).headD 0 = p0 := by
      unfold segLens
      rw [hraw]
      by_cases hz : B.length - (p0 :: shiftedLens t0.length toksRest).sum ≠ 0
      · rw [if_pos hz]
        refine ⟨[B.length - (p0 :: shiftedLens t0.length toksRest).sum, 0], ?_, by simp⟩
        simp
      · rw [if_neg hz]
        exact ⟨[0], by simp, by simp⟩
    obtain ⟨tl, htail, hhead⟩ := hsegLens
    have hpairs : segPairs B.length (tokenize (rstrip C)) =
        (shiftedLens t0.length toksRest ++ tl).zip (t0 :: toksRest.map Prod.snd) := by
      unfold segPairs
      rw [htail, htk]
      simp
    rw [hpairs, hhead, sepOKAux_text_false]
    exact emit_sep B w _ p0
      (interior_aux toksRest t0 p0 B.length tl ht0 htoksRest (by omega))

/-- Claim C3 counterexample: the claim (and spec Scenario B) says that merging
chord line `"Am"` with lyric `"Go"` yields `\mchord*{Am}Go ` (starred, forced
trailing space).  The code's collision branch requires `not is_last`, so the
final token is never starred: the actual output is `\mchord{Am}Go`. -/
theorem scenario_b_not_starred_cex :
    merge "Go".toList "Am".toList false = "\\mchord\x7bAm\x7dGo".toList ∧
    merge "Go".toList "Am".toList false ≠ "\\mchord*\x7bAm\x7dGo ".toList := by
  exact ⟨by decide, by decide⟩

/-- Claim C3 (amended): the collision rule applies only to non-final tokens:
when a non-final token's (nonempty) span has no whitespace, the command is
rendered starred and one space is injected into the span at offset
`detailLength` when the span is at least that long, else appended at the
span's end; a final token's command is never starred (second conjunct), and
merging chord line `"Am"` with lyric `"Go"` yields plain `\mchord{Am}Go`
(third conjunct). -/
theorem collision_rule_non_final_tokens (base detail : List Char) (opt : Bool)
    (total segLen : Nat) (q : Nat × List Char) (rest : List (Nat × List Char))
    (hsc : ((base.drop total).take segLen).countP (fun c => isWs c) = 0)
    (hne : (base.drop total).take segLen ≠ []) :
    (emitPieces base opt total ((segLen, detail) :: q :: rest) =
      Piece.chord detail opt true ::
      Piece.text (if detailLength detail ≤ ((base.drop total).take segLen).length
          then ((base.drop total).take segLen).take (detailLength detail) ++
               ' ' :: ((base.drop total).take segLen).drop (detailLength detail)
          else ((base.drop total).take segLen) ++ [' ']) ::
      emitPieces base opt (total + segLen) (q :: rest)) ∧
    (∀ (d : List Char) (o : Bool) (tt ss : Nat), ∃ txt,
      emitPieces base o tt [(ss, d)] = [Piece.chord d o false, Piece.text txt]) ∧
    merge "Go".toList "Am".toList false = "\\mchord\x7bAm\x7dGo".toList := by
  refine ⟨?_, ?_, by decide⟩
  · rw [emitPieces_cons_eq]
    rw [if_pos]
    simp [hsc, hne]
  · intro d o tt ss
    rw [emitPieces_cons_eq]
    rw [if_neg (by simp)]
    exact ⟨_, rfl⟩

/-- Witness for `collision_rule_non_final_tokens` at a concrete input: the
span `"ab"` of the non-final token `C` has no whitespace, so the command is
starred and a space is forced in. -/
theorem collision_rule_non_final_tokens_witness :
    emitPieces "abcd".toList false 0 [(2, ['C']), (2, ['D'])] =
      Piece.chord ['C'] false true :: Piece.text "ab ".toList ::
        emitPieces "abcd".toList false 2 [(2, ['D'])] := by
  have h := (collision_rule_non_final_tokens "abcd".toList ['C'] false 0 2 (2, ['D']) []
    (by decide) (by decide)).1
  rw [h]
  rfl

/-- `re.sub("\\s", "~", segment, count=k)` with `k` equal to the number of
whitespace characters among the first `n` characters rewrites exactly those
first-`n` whitespace characters to `~` and leaves everything from position
`n` on unchanged. -/
theorem subWs_zero (l : List Char) : subWs 0 l = l := by
  cases l <;> rfl

theorem subWs_take (l : List Char) :
    ∀ n, subWs ((l.take n).countP (fun c => isWs c)) l =
      (l.take n).map (fun c => if isWs c then '~' else c) ++ l.drop n := by
  induction l with
  | nil => intro n; cases n <;> rfl
  | cons c cs ih =>
    intro n
    cases n with
    | zero => rfl
    | succ n2 =>
      by_cases hw : isWs c
      · simp only [List.take_succ_cons, List.countP_cons, hw, if_pos, List.map_cons,
          List.drop_succ_cons, List.cons_append]
        have hstep : subWs ((cs.take n2).countP (fun c => isWs c) + 1) (c :: cs) =
            '~' :: subWs ((cs.take n2).countP (fun c => isWs c)) cs := by
          simp [subWs, hw]
        simp only [hstep, ih n2]
      · have hstep : ∀ k, subWs k (c :: cs) = c :: subWs k cs := by
          intro k
          cases k with
          | zero => simp [subWs]
          | succ k2 => simp [subWs, hw]
        have hcnt : ((c :: cs).take (n2 + 1)).countP (fun c => isWs c) =
            (cs.take n2).countP (fun c => isWs c) := by
          simp [List.countP_cons, hw]
        rw [hcnt, hstep, ih n2]
        simp [hw]

/-- Claim C4 counterexample: merging lyric `"a b a"` with chord line `"C  D"`
leaves every whitespace character untouched, although the claim mandates that
the whitespace inside each command's reach (3 columns for `C` and for `D`)
be converted to `~`: the claimed output would be
`\mchord{C}a~b\mchord{D}~a`, but the code emits `\mchord{C}a b\mchord{D} a`,
because the substitution only runs when whitespace exists beyond the reach. -/
theorem join_marker_requires_far_space_cex :
    merge "a b a".toList "C  D".toList false =
      "\\mchord\x7bC\x7da b\\mchord\x7bD\x7d a".toList ∧
    merge "a b a".toList "C  D".toList false ≠
      "\\mchord\x7bC\x7da~b\\mchord\x7bD\x7d~a".toList := by
  exact ⟨by decide, by decide⟩

/-- Claim C4 (amended): the reach is `max(len(symbol)+1, 3)`, plus 2 when the
lowercased symbol contains `m` or `dim`; but whitespace within the reach is
converted to `~` only when the reach is shorter than the span and some
whitespace lies beyond it (`segment_far_space_count > 0`).  In that case
exactly the whitespace characters within the reach are converted and
everything from the reach onward is unchanged; when no whitespace lies beyond
the reach, the span is left entirely unchanged (second conjunct). -/
theorem join_marker_rule_amended (base detail : List Char) (opt : Bool)
    (total segLen : Nat) (rest : List (Nat × List Char))
    (hnc : ¬(rest ≠ [] ∧ ((base.drop total).take segLen).countP (fun c => isWs c) = 0 ∧
             (base.drop total).take segLen ≠ [])) :
    (detailLength detail < ((base.drop total).take segLen).length →
     0 < (((base.drop total).take segLen).drop (detailLength detail)).countP
           (fun c => isWs c) →
     emitPieces base opt total ((segLen, detail) :: rest) =
       Piece.chord detail opt false ::
       Piece.text ((((base.drop total).take segLen).take (detailLength detail)).map
             (fun c => if isWs c then '~' else c) ++
           ((base.drop total).take segLen).drop (detailLength detail)) ::
       emitPieces base opt (total + segLen) rest) ∧
    ((if ((base.drop total).take segLen).length ≤ detailLength detail then 0
      else (((base.drop total).take segLen).drop (detailLength detail)).countP
        (fun c => isWs c)) = 0 →
     emitPieces base opt total ((segLen, detail) :: rest) =
       Piece.chord detail opt false ::
       Piece.text ((base.drop total).take segLen) ::
       emitPieces base opt (total + segLen) rest) := by
  have hguard : (!rest.isEmpty &&
      ((base.drop total).take segLen).countP (fun c => isWs c) == 0 &&
      !((base.drop total).take segLen).isEmpty) = false := by
    cases hrest : rest with
    | nil => simp
    | cons q qs =>
      push_neg at hnc
      rcases Decidable.em (((base.drop total).take segLen).countP (fun c => isWs c) = 0) with
        hz | hz
      · have := hnc (by rw [hrest]; simp) hz
        simp [this, hz]
      · simp [hz]
  constructor
  · intro hlt hfar
    rw [emitPieces_cons_eq, if_neg (by rw [hguard]; simp)]
    have hfne : ¬(((base.drop total).take segLen).length ≤ detailLength detail) := by omega
    rw [if_neg hfne]
    have hsplit : ((base.drop total).take segLen).countP (fun c => isWs c) =
        (((base.drop total).take segLen).take (detailLength detail)).countP
          (fun c => isWs c) +
        (((base.drop total).take segLen).drop (detailLength detail)).countP
          (fun c => isWs c) := by
      conv_lhs => rw [← List.take_append_drop (detailLength detail)
        ((base.drop total).take segLen)]
      rw [List.countP_append]
    by_cases hk : (((base.drop total).take segLen).take (detailLength detail)).countP
        (fun c => isWs c) = 0
    · rw [if_neg]
      · have hxx := subWs_take ((base.drop total).take segLen) (detailLength detail)
        rw [hk] at hxx
        rw [← hxx, subWs_zero]
      · rw [hsplit, hk]
        simp
    · rw [if_pos]
      · have harith : ((base.drop total).take segLen).countP (fun c => isWs c) -
            (((base.drop total).take segLen).drop (detailLength detail)).countP
              (fun c => isWs c) =
            (((base.drop total).take segLen).take (detailLength detail)).countP
              (fun c => isWs c) := by omega
        rw [harith, subWs_take]
      · constructor
        · exact hfar
        · omega
  · intro hz
    rw [emitPieces_cons_eq, if_neg (by rw [hguard]; simp)]
    rw [if_neg (by rw [hz]; simp)]

/-- Witness for `join_marker_rule_amended`: span `"ab  "` under chord `C`
(reach 3) has whitespace beyond the reach, so the single in-reach whitespace
becomes `~`: the emitted segment is `"ab~ "`. -/
theorem join_marker_rule_amended_witness :
    emitPieces "ab  ".toList false 0 [(4, ['C'])] =
      [Piece.chord ['C'] false false, Piece.text "ab~ ".toList] := by
  have h := (join_marker_rule_amended "ab  ".toList ['C'] false 0 4 []
    (by simp)).1 (by decide) (by decide)
  rw [h]
  rfl

/-! ## Classifier claims -/

theorem predict_chords_iff (line : List Char) (h : strip line ≠ []) :
    predict_line_type line = LineType.CHORDS ↔ is_chord_line line = true := by
  unfold predict_line_type
  rw [if_neg h]
  by_cases hc : is_chord_line line
  · simp [hc]
  · simp only [hc, Bool.false_eq_true, if_false]
    constructor
    · intro habs
      exfalso
      cases hl : get_label line with
      | none => rw [hl] at habs; simp at habs
      | some label =>
        rw [hl] at habs
        simp only [] at habs
        split_ifs at habs <;> exact LineType.noConfusion habs
    · intro habs
      simp at habs

/-- Claim C5 counterexample: the line `"ABCDEFGH     "` (eight note letters
followed by five trailing spaces) is classified `CHORDS`, yet on the
`strip`ped line the claimed formula fails: there `W = 0` and `C = 8`, so
`W > C - 4` is false.  The code computes the counts after `lstrip`, not
`strip`, so the five trailing spaces count towards `W`. -/
theorem chord_line_lstrip_cex :
    predict_line_type "ABCDEFGH     ".toList = LineType.CHORDS ∧
    ¬(((strip "ABCDEFGH     ".toList).countP (fun c => isWs c) : Int) >
        ((strip "ABCDEFGH     ".toList).countP (fun c => !isWs c) : Int) - 4 ∧
      ((strip "ABCDEFGH     ".toList).countP (fun c => !isWs c) : Int) -
        ((strip "ABCDEFGH     ".toList).countP (fun c => 'A' ≤ c && c ≤ 'H') : Int) < 8) := by
  exact ⟨by decide, by decide⟩

/-- Claim C5 (amended): a non-blank line is classified ChordLine iff, on the
**left-stripped** line (trailing whitespace included), `W > C - 4` and
`C - B < 8`, where `C` counts non-whitespace characters, `W` whitespace
characters, and `B` characters in `{A..H}`. -/
theorem chord_line_formula_lstrip (line : List Char) (h : strip line ≠ []) :
    predict_line_type line = LineType.CHORDS ↔
      (((lstrip line).countP (fun c => isWs c) : Int) >
         ((lstrip line).countP (fun c => !isWs c) : Int) - 4 ∧
       ((lstrip line).countP (fun c => !isWs c) : Int) -
         ((lstrip line).countP (fun c => 'A' ≤ c && c ≤ 'H') : Int) < 8) := by
  rw [predict_chords_iff line h]
  unfold is_chord_line
  simp only [decide_eq_true_eq, gt_iff_lt]
  have hsplit := count_ws_split (lstrip line)
  have hw : (lstrip line).length - (lstrip line).countP (fun c => !isWs c) =
      (lstrip line).countP (fun c => isWs c) := by omega
  rw [hw]

/-- Witness for `chord_line_formula_lstrip` on `"A A"`. -/
theorem chord_line_formula_lstrip_witness :
    predict_line_type "A A".toList = LineType.CHORDS :=
  (chord_line_formula_lstrip "A A".toList (by decide)).mpr (by decide)

/-- Claim C6 counterexample: the label of the line `"verse: la la la"` is
`"verse"`, which contains neither `"chorus"` nor `"refren"` and is not equal
to `"r"`, so the claim maps it to Solo; but the code tests `'r' in label`
(containment), and `"verse"` contains an `r`, so the line is classified
Chorus. -/
theorem label_contains_r_cex :
    get_label "verse: la la la".toList = some "verse".toList ∧
    predict_line_type "verse: la la la".toList = LineType.CHORUS ∧
    ¬(containsSeq "chorus".toList "verse".toList = true ∨
      containsSeq "refren".toList "verse".toList = true ∨
      "verse".toList = "r".toList) := by
  refine ⟨by decide, by decide, by decide⟩

/-- Claim C6 (amended): for every line accepted as a SectionLabel (not blank,
not a chord line, label extraction succeeds), the lowercased label determines
the kind: all-digit → Verse; containing `"bridge"`, `"*"`, `"intro"` or
`"outro"` → Bridge; containing `"chorus"`, `"refren"` **or the letter `r`** →
Chorus; anything else → Solo. -/
theorem label_kind_mapping_amended (line label : List Char)
    (hne : strip line ≠ []) (hchord : is_chord_line line = false)
    (hlab : get_label line = some label) :
    predict_line_type line =
      (if label ≠ [] ∧ label.all (fun c => '0' ≤ c && c ≤ '9') then LineType.VERSE
       else if containsSeq "bridge".toList label || label.contains '*' ||
               containsSeq "intro".toList label || containsSeq "outro".toList label then
         LineType.BRIDGE
       else if containsSeq "chorus".toList label || containsSeq "refren".toList label ||
               label.contains 'r' then LineType.CHORUS
       else LineType.SOLO) := by
  unfold predict_line_type
  rw [if_neg hne, if_neg (by simp [hchord]), hlab]

/-- Witness for `label_kind_mapping_amended` on `"chorus: lalala"`. -/
theorem label_kind_mapping_amended_witness :
    predict_line_type "chorus: lalala".toList = LineType.CHORUS := by
  have h := label_kind_mapping_amended "chorus: lalala".toList "chorus".toList
    (by decide) (by decide) (by decide)
  rw [h]
  decide

/-! ## Group-assembler claims -/

/-- Claim C2 counterexample: a ChordLine `"Am"` followed by an Empty line and
then the PlainText line `"Go"`.  The claim says the Empty line clears the
buffer, so `"Am"`'s tokens could never reach `"Go"`; but the code clears the
buffer only in the `gobbles_chords` set (group starts and TEXT), not on
EMPTY, so the stale buffer opens an implicit `VERSE_WITH_CHORDS` group and is
merged into `"Go"`, producing `\mchord{Am}Go`. -/
theorem empty_line_does_not_clear_buffer_cex :
    format_annotated_lines
      [(LineType.CHORDS, "Am".toList), (LineType.EMPTY, []),
       (LineType.TEXT, "Go".toList)] =
      ["\\begin\x7bverse\x7d".toList, "   \\mchord\x7bAm\x7dGo".toList,
       "\\end\x7bverse\x7d".toList] := by
  decide

/-- Claim C2 (amended): an Empty line leaves the pending chord buffer
untouched (first conjunct); the buffer is cleared exactly when a line in the
`gobbles_chords` set (a group-start or TEXT line) is processed (second
conjunct).  A ChordLine followed by an Empty line can therefore still be
merged into a later content line. -/
theorem empty_line_preserves_buffer (st : FState) (line : List Char) (t : LineType) :
    (processLine st (LineType.EMPTY, line)).chord_buffer = st.chord_buffer ∧
    (gobblesChords t = true → (processLine st (t, line)).chord_buffer = []) := by
  constructor
  · unfold processLine
    by_cases h : st.current_group_type ≠ none <;>
      simp [h, endGroup, gobblesChords, shouldBeAppended, isGroupStart]
  · intro hg
    unfold processLine
    simp [hg]

/-- Witness for `empty_line_preserves_buffer`: concrete state, a TEXT line
gobbles the buffer. -/
theorem empty_line_preserves_buffer_witness :
    (processLine initState (LineType.EMPTY, ['x'])).chord_buffer =
      initState.chord_buffer ∧
    (processLine initState (LineType.TEXT, ['x'])).chord_buffer = [] :=
  ⟨(empty_line_preserves_buffer initState ['x'] LineType.TEXT).1,
   (empty_line_preserves_buffer initState ['x'] LineType.TEXT).2 (by decide)⟩

/-- Claim C8 counterexample: a `VERSE_WITH_CHORDS` label line followed by a
ChordLine, then end of input.  The claim says the pending buffer's raw text
`"Am"` is emitted as a trailing line; the code merely closes the group and
the buffer is discarded — `"Am"` appears nowhere in the output. -/
theorem pending_buffer_discarded_cex :
    format_annotated_lines
      [(LineType.VERSE_WITH_CHORDS, "1: Go".toList), (LineType.CHORDS, "Am".toList)] =
      ["\\begin\x7bverse\x7d".toList, "   Go".toList, "\\end\x7bverse\x7d".toList] ∧
    "Am".toList ∉ format_annotated_lines
      [(LineType.VERSE_WITH_CHORDS, "1: Go".toList), (LineType.CHORDS, "Am".toList)] := by
  exact ⟨by decide, by decide⟩

/-- Claim C8 (amended): at end of input the assembler closes any still-open
group — the final output line is the group's `\end{...}` marker (second
conjunct) — and the pending chord buffer plays no role whatsoever in the
epilogue: the emitted lines are identical for any two buffer contents (first
conjunct), i.e. a pending buffer is discarded, never emitted. -/
theorem end_of_input_closes_group_discards_buffer (st : FState)
    (b₁ b₂ : List Char) (g : LineType) :
    finalizeLines { st with chord_buffer := b₁ } =
      finalizeLines { st with chord_buffer := b₂ } ∧
    (st.current_group_type = some g →
      (finalizeLines st).getLast? = some (endLine g)) := by
  constructor
  · unfold finalizeLines endGroup
    by_cases h : st.current_group_type ≠ none <;> simp [h]
  · intro hg
    unfold finalizeLines
    rw [if_pos (by rw [hg]; simp)]
    unfold endGroup
    rw [hg]
    simp [endLine, List.getLast?_concat]

/-- Witness for `end_of_input_closes_group_discards_buffer` on a state with
an open `VERSE` group. -/
theorem end_of_input_closes_group_discards_buffer_witness :
    (finalizeLines { initState with current_group_type := some LineType.VERSE }).getLast? =
      some (endLine LineType.VERSE) :=
  (end_of_input_closes_group_discards_buffer
    { initState with current_group_type := some LineType.VERSE }
    [] [] LineType.VERSE).2 rfl

/-- Claim C10: a content line of an open plain-`SOLO` group is never merged
with the chord buffer: after removing the group padding it is rendered by
`format_solo_line` — the line split at every whitespace character, each
field wrapped as `\inlinechord{...}`, joined by single spaces (third
conjunct restates `format_solo_line`'s definition).  The first conjunct
covers continuation TEXT lines, the second the SOLO label line itself. -/
theorem solo_lines_use_inlinechord (st : FState) (line : List Char) :
    (st.current_group_type = some LineType.SOLO →
      (processLine st (LineType.TEXT, line)).group_lines =
        st.group_lines ++ [format_solo_line (line.drop st.group_padding)]) ∧
    (st.current_group_type = none →
      (processLine st (LineType.SOLO, line)).group_lines =
        st.group_lines ++
          [format_solo_line (line.drop (get_group_padding_length line))]) ∧
    (∀ l, format_solo_line l =
      List.intercalate [' ']
        ((splitWsAll l).map (fun chord =>
          "\\inlinechord".toList ++ '\x7b' :: (chord ++ ['\x7d'])))) := by
  refine ⟨?_, ?_, fun l => rfl⟩
  · intro hg
    unfold processLine
    simp [hg, isGroupStart, shouldBeAppended, gobblesChords]
  · intro hg
    unfold processLine
    simp [hg, isGroupStart, shouldBeAppended, gobblesChords, optHasChords]

/-- Witness for `solo_lines_use_inlinechord` in an open SOLO group. -/
theorem solo_lines_use_inlinechord_witness :
    (processLine { initState with current_group_type := some LineType.SOLO }
        (LineType.TEXT, "C  D".toList)).group_lines =
      [format_solo_line "C  D".toList] := by
  have h := (solo_lines_use_inlinechord
    { initState with current_group_type := some LineType.SOLO } "C  D".toList).1 rfl
  rw [h]
  rfl

/-! ## Curated-classification claims -/

/-- Claim C9 counterexample: `parse_line_type` has no default case, so the
unrecognized curated type character `'x'` yields `none` — no `LineType` at
all — rather than being substituted with PlainText (`LineType.TEXT`). -/
theorem parse_line_type_unknown_cex :
    parse_line_type 'x' = none ∧
    (none : Option LineType) ≠ some LineType.TEXT := by
  exact ⟨by decide, by decide⟩

/-- Claim C9 (amended): in the curation parser of `chords_to_latex.py`, a
curated line that does not match the two-field `"<char> > <text>"` encoding
is substituted with annotation `none` (PlainText) and parsing continues with
the remaining lines; `4_convert_to_latex.py`'s `parse_line_type`, however,
maps an unrecognized type character to `none` rather than to PlainText. -/
theorem malformed_annot_substitution (o e : List Char) (os es : List (List Char))
    (h : ¬(3 ≤ e.length ∧ (e.drop 2).take 2 = ['>', ' '])) :
    annot_parse_lines (o :: os) (e :: es) =
      (none, o) :: annot_parse_lines os es := by
  have hstep : annot_parse_lines (o :: os) (e :: es) =
      parse_annot_line o e :: annot_parse_lines os es := rfl
  rw [hstep]
  unfold parse_annot_line
  rw [if_neg h]

/-- Witness for `malformed_annot_substitution` on the malformed edited line
`"xx"`. -/
theorem malformed_annot_substitution_witness :
    annot_parse_lines ["a".toList] ["xx".toList] = [(none, "a".toList)] := by
  have h := malformed_annot_substitution "a".toList "xx".toList [] [] (by decide)
  rw [h]
  rfl

/-! ## Tokenizer-specification claims -/

theorem specRunsGo_cons (col : Nat) (c : Char) (cs : List Char) :
    specRunsGo col (c :: cs) =
      if isWs c then specRunsGo (col + 1) cs
      else
        match specRunsGo (col + 1) cs with
        | [] => [(col, [c])]
        | (col2, t) :: rest =>
          if col2 = col + 1 then (col, c :: t) :: rest
          else (col, [c]) :: (col2, t) :: rest := rfl

theorem specRunsGo_all_ws (b : List Char) :
    ∀ col, (∀ c ∈ b, isWs c = true) → specRunsGo col b = [] := by
  induction b with
  | nil => intro col _; rfl
  | cons c cs ih =>
    intro col hb
    rw [specRunsGo_cons, if_pos (hb c (List.mem_cons_self _ _))]
    exact ih (col + 1) (fun x hx => hb x (List.mem_cons_of_mem _ hx))

theorem specRunsGo_append_ws (a : List Char) :
    ∀ (b : List Char) (col : Nat), (∀ c ∈ b, isWs c = true) →
      specRunsGo col (a ++ b) = specRunsGo col a := by
  induction a with
  | nil =>
    intro b col hb
    rw [List.nil_append]
    exact specRunsGo_all_ws b col hb
  | cons c cs ih =>
    intro b col hb
    rw [List.cons_append, specRunsGo_cons, specRunsGo_cons, ih b (col + 1) hb]

theorem tokenizeAbs_specRuns (l : List Char) :
    ∀ col, lastNonWs l → tokenizeAbs col (tokenize l) = specRunsGo col l := by
  induction l with
  | nil => intro col _; rfl
  | cons c cs ih =>
    intro col hlast
    by_cases hw : isWs c
    · have hne : cs ≠ [] := by
        intro hnil
        subst hnil
        have habs := hlast c (by simp)
        rw [hw] at habs
        simp at habs
      have hl2 := lastNonWs_cons c cs hne hlast
      obtain ⟨pt, r, htk⟩ : ∃ pt r, tokenize cs = pt :: r := by
        cases htk : tokenize cs with
        | nil => rw [tokenize_eq_nil_iff] at htk; exact absurd htk hne
        | cons pt r => exact ⟨pt, r, rfl⟩
      obtain ⟨p, t⟩ := pt
      have hih := ih (col + 1) hl2
      rw [htk] at hih
      rw [specRunsGo_cons, if_pos hw, ← hih]
      rw [tokenize_cons, if_pos hw, htk]
      simp only [tokenizeAbs]
      have e1 : col + (p + 1) = col + 1 + p := by omega
      rw [e1]
    · have hwf : isWs c = false := by simpa using hw
      rw [specRunsGo_cons, if_neg (by simp [hwf])]
      cases htk : tokenize cs with
      | nil =>
        rw [tokenize_eq_nil_iff] at htk
        subst htk
        simp [tokenize, tokenizeAbs, specRunsGo, hwf]
      | cons pt r =>
        obtain ⟨p, t⟩ := pt
        have hne : cs ≠ [] := by
          intro hnil
          rw [hnil] at htk
          simp [tokenize] at htk
        have hl2 := lastNonWs_cons c cs hne hlast
        have hih := ih (col + 1) hl2
        rw [htk] at hih
        cases p with
        | zero =>
          have hih2 : specRunsGo (col + 1) cs =
              (col + 1, t) :: tokenizeAbs (col + 1 + t.length) r := by
            rw [← hih]
            simp only [tokenizeAbs, Nat.add_zero]
          rw [hih2]
          rw [tokenize_cons, if_neg (by simp [hwf]), htk]
          simp only [tokenizeAbs, List.length_cons, Nat.add_zero, if_true]
          have e1 : col + (t.length + 1) = col + 1 + t.length := by omega
          rw [e1]
        | succ p2 =>
          have hih2 : specRunsGo (col + 1) cs =
              (col + 1 + (p2 + 1), t) ::
                tokenizeAbs (col + 1 + (p2 + 1) + t.length) r := by
            rw [← hih]
            simp only [tokenizeAbs]
          rw [hih2]
          rw [tokenize_cons, if_neg (by simp [hwf]), htk]
          simp only [tokenizeAbs, List.length_cons, List.length_nil, Nat.add_zero]
          rw [if_neg (by omega)]

/-- Claim C7 counterexample: the whitespace-run tokenizer used by `merge`
performs no normalization at all: the chord line `"Am"` tokenizes to the
token `"Am"`, not to the claimed minor spelling `"Ami"`.  (The `m → mi`
rewrite exists only in `song_finder.py`'s regex-based extractor, which does
not split on whitespace runs.) -/
theorem tokenizer_no_normalization_cex :
    (tokenize (rstrip "Am".toList)).map Prod.snd = ["Am".toList] ∧
    "Am".toList ≠ "Ami".toList := by
  exact ⟨by decide, by decide⟩

/-- Claim C7 (amended): the tokenizer of `merge` (applied to the `rstrip`ped
chord line) splits the original, un-left-stripped line on whitespace runs:
converting its relative paddings to absolute columns yields exactly the
(absolute starting column, non-whitespace run) pairs of the line — and
nothing else, in particular no `m → mi` normalization of the tokens. -/
theorem tokenizer_splits_ws_runs (l : List Char) :
    tokenizeAbs 0 (tokenize (rstrip l)) = specRuns l := by
  rw [tokenizeAbs_specRuns (rstrip l) 0 (rstrip_lastNonWs l)]
  obtain ⟨hdec, hws⟩ := rstrip_decomp l
  unfold specRuns
  conv_rhs => rw [hdec]
  rw [specRunsGo_append_ws (rstrip l) _ 0 hws]
